import Mathlib

/-!
Verification of the cocotb test harness `tb/axis_replay_buffer.py` for the
AXI-stream replay buffer.  The harness is embedded shallowly: the coroutine
`recv` (with its inner `recv_len` and `restart`) is modelled as a pure
function from the packet to the list of observable actions it performs at the
DUT boundary (beat consumptions with their checked values, `replayable`
assertions, `replay` pulses, idle waits, and `done` updates), and the
coroutine `send_packet` is modelled as a per-cycle drive schedule
parameterised by the sequence of sampled `ready` values.
-/

namespace AxisReplayBuffer

/-- The buffer capacity `BUF_SIZE = 54` used by the testbench (line 11). -/
def BUF_SIZE : Nat := 54

/-- One observable action of the `recv` coroutine at the DUT boundary:

* `recvBeat d l` — wait for an egress handshake, assert the consumed beat has
  `m_axis_data = d` and `m_axis_last = l`, then advance one clock
  (`recv_len`, lines 69-74);
* `checkReplayable` — assert `buf.replayable` at a falling edge
  (`restart`, line 78);
* `pulseReplay` — drive `buf.replay` high for one cycle
  (`restart`, lines 79-81);
* `waitCycles n` — `await ClockCycles(buf.clk, n)` with no other activity
  (line 91);
* `setDone b` — drive `buf.done` to `b` (lines 83 and 94). -/
inductive Action where
  | recvBeat (data : Nat) (last : Bool)
  | checkReplayable
  | pulseReplay
  | waitCycles (n : Nat)
  | setDone (b : Bool)
deriving DecidableEq, Repr

/-- Modelled from the spec: `lookahead` comes from `tb/util.py`, which is not
among the sources; per the spec the harness constructs packets
"as `[word_0 … word_{k-1}]` with `last` true only on the final word", so
`lookahead` pairs each element with a flag that is true exactly on the final
element. -/
def lookahead {α : Type} (xs : List α) : List (α × Bool) :=
  xs.enum.map fun p => (p.2, decide (p.1 = xs.length - 1))

/-- The coroutine `recv_len(length)` (lines 69-74): for each index `i` and value `val` of
`packet[:length]`, consume one egress beat and assert its data is `val` and
its `last` flag is `(i == len(packet) - 1)`. -/
def recvLen (packet : List Nat) (length : Nat) : List Action :=
  (packet.take length).enum.map fun p =>
    Action.recvBeat p.2 (decide (p.1 = packet.length - 1))

/-- The coroutine `restart()` (lines 76-81): at a falling edge assert `replayable`, then
pulse `replay` for one cycle. -/
def restart : List Action := [Action.checkReplayable, Action.pulseReplay]

/-- The coroutine `recv(packet)` (lines 64-95): lower `done`; with
`replayable = min(len(packet), BUF_SIZE)`, receive `replayable - 3` beats,
replay, receive `replayable - 2` beats, wait 3 idle cycles if the packet fits
in the buffer, replay again, raise `done`, and receive the whole packet. -/
def recv (packet : List Nat) : List Action :=
  let replayable := min packet.length BUF_SIZE
  [Action.setDone false] ++
  recvLen packet (replayable - 3) ++
  restart ++
  recvLen packet (replayable - 2) ++
  (if packet.length ≤ BUF_SIZE then [Action.waitCycles 3] else []) ++
  restart ++
  [Action.setDone true] ++
  recvLen packet packet.length

/-- The three test packets of `test_replay` (line 52):
`list(range(54))`, `list(range(64, 128))`, `list(range(128, 512))`. -/
def packets : List (List Nat) :=
  [List.range 54, List.range' 64 64, List.range' 128 384]

/-- The receive side of `test_replay` (lines 98-99): `recv` is run once per
test packet, in order. -/
def recvAll : List Action := (packets.map recv).flatten

/-- Every `pulseReplay` in the action list is immediately preceded by a
`checkReplayable` (the harness observes `replayable` before driving
`replay`). -/
def replayGuarded : List Action → Bool
  | [] => true
  | Action.checkReplayable :: Action.pulseReplay :: rest => replayGuarded rest
  | Action.pulseReplay :: _ => false
  | _ :: rest => replayGuarded rest

/-- The `(data, last)` pairs checked by the `recvBeat` actions of a trace, in
order. -/
def beatPairs : List Action → List (Nat × Bool)
  | [] => []
  | Action.recvBeat d l :: rest => (d, l) :: beatPairs rest
  | _ :: rest => beatPairs rest

/-- The data/err values `send_packet` computes for one packet element
(lines 15-23): with an `err` signal in the map, a `None` element drives
`data = 0, err = 1` and any other element `v` drives `data = v, err = 0`;
without an `err` signal the element is driven onto `data` unconditionally and
no `err` value exists. -/
structure DrivenBeat where
  data : Option Nat
  err : Option Bool
deriving DecidableEq, Repr

/-- The branch of `send_packet` (lines 15-23) selecting the `data`/`err`
values driven for one packet element `val`; `hasErr` is whether the signal
map contains an `err` signal. -/
def driveBeatValues (hasErr : Bool) (val : Option Nat) : DrivenBeat :=
  if hasErr then
    match val with
    | none => { data := some 0, err := some true }
    | some v => { data := some v, err := some false }
  else
    { data := val, err := none }

/-- The ingress signal values driven by `send_packet` during one sampled
cycle. -/
structure Drive where
  valid : Bool
  data : Option Nat
  err : Option Bool
  last : Bool
deriving DecidableEq, Repr

/-- The hold loop of `send_packet` for one beat (lines 24-31): the signal
values are driven, then at each falling edge `ready` is sampled; the drive is
held unchanged up to and including the first cycle whose sample is high,
after which `valid` is deasserted.  Returns the per-cycle drives (one per
consumed `ready` sample) and the remaining `ready` samples. -/
def driveBeat (sig : DrivenBeat) (l : Bool) : List Bool → List Drive × List Bool
  | [] => ([], [])
  | r :: rs =>
    if r then ([⟨true, sig.data, sig.err, l⟩], rs)
    else
      let x := driveBeat sig l rs
      (⟨true, sig.data, sig.err, l⟩ :: x.1, x.2)

/-- The loop of `send_packet` over `lookahead(packet)` (lines 14-33): each
`(val, last)` pair is driven until accepted; with `ratio > 1`, after each
accepted beat `valid` is deasserted for `ratio - 1` cycles while the other
signals hold their last driven values. -/
def sendBeats (hasErr : Bool) : List (Option Nat × Bool) → Nat → List Bool → List Drive
  | [], _, _ => []
  | (v, l) :: rest, ratio, readys =>
    let sig := driveBeatValues hasErr v
    let x := driveBeat sig l readys
    x.1 ++ List.replicate (ratio - 1) ⟨false, sig.data, sig.err, l⟩ ++
      sendBeats hasErr rest ratio (x.2.drop (ratio - 1))

/-- The coroutine `send_packet(signals, packet, ratio)` (lines 13-33) as a per-cycle drive
schedule. -/
def sendPacket (hasErr : Bool) (packet : List (Option Nat)) (ratio : Nat)
    (readys : List Bool) : List Drive :=
  sendBeats hasErr (lookahead packet) ratio readys

/-- The coroutine `handshake()` (lines 65-67): given the per-cycle samples of
`m_axis_valid` and `m_axis_ready`, the coroutine returns at the first cycle
where both are high (`none` if that never happens within the samples). -/
def handshakeIdx : List Bool → List Bool → Option Nat
  | v :: vs, r :: rs =>
    if v && r then some 0 else (handshakeIdx vs rs).map (· + 1)
  | _, _ => none

/-- C1 expected trace, first replay segment: beats 0..50, `last` low. -/
def c1seg1 : List Action := (List.range 51).map fun i => Action.recvBeat i false

/-- C1 expected trace, second replay segment: beats 0..51, `last` low. -/
def c1seg2 : List Action := (List.range 52).map fun i => Action.recvBeat i false

/-- C1 expected trace, final full pass: beats 0..53 with `last` true only on
beat 53. -/
def c1segFull : List Action :=
  ((List.range 53).map fun i => Action.recvBeat i false) ++
    [Action.recvBeat 53 true]

/-- C2 amended trace, first replay segment: beats `128..178` (51 beats). -/
def c2seg1 : List Action := (List.range' 128 51).map fun v => Action.recvBeat v false

/-- C2 amended trace, second replay segment: beats `128..179` (52 beats). -/
def c2seg2 : List Action := (List.range' 128 52).map fun v => Action.recvBeat v false

/-- C2 amended trace, final full pass: all 384 beats with `last` true only on
the final one. -/
def c2segFull : List Action :=
  ((List.range' 128 383).map fun v => Action.recvBeat v false) ++
    [Action.recvBeat 511 true]

/- ------------------------------------------------------------------ -/
/- Helper lemmas                                                      -/
/- ------------------------------------------------------------------ -/

/-- Every element of a `recvLen` trace is a `recvBeat`. -/
theorem mem_recvLen {a : Action} {p : List Nat} {n : Nat}
    (h : a ∈ recvLen p n) : ∃ d l, a = Action.recvBeat d l := by
  obtain ⟨q, -, rfl⟩ := List.mem_map.mp h
  exact ⟨_, _, rfl⟩

/-- No `setDone` action occurs in a `recvLen` trace. -/
theorem setDone_not_mem_recvLen (b : Bool) (p : List Nat) (n : Nat) :
    Action.setDone b ∉ recvLen p n := by
  intro h
  obtain ⟨d, l, hdl⟩ := mem_recvLen h
  cases hdl

/-- No `pulseReplay` action occurs in a `recvLen` trace. -/
theorem pulseReplay_not_mem_recvLen (p : List Nat) (n : Nat) :
    Action.pulseReplay ∉ recvLen p n := by
  intro h
  obtain ⟨d, l, hdl⟩ := mem_recvLen h
  cases hdl

/-- Evaluation of `beatPairs` over a list of `recvBeat` actions built by `map`. -/
theorem beatPairs_map {α : Type} (xs : List α) (f : α → Nat) (g : α → Bool) :
    beatPairs (xs.map fun a => Action.recvBeat (f a) (g a)) =
      xs.map fun a => (f a, g a) := by
  induction xs with
  | nil => rfl
  | cons x xs ih => simpa [beatPairs] using ih

/-- Indices strictly below `m` never equal `m`. -/
theorem range_map_ne (m : Nat) :
    ((List.range m).map fun i => decide (i = m)) = List.replicate m false := by
  apply List.eq_replicate_iff.mpr
  refine ⟨by simp, ?_⟩
  intro b hb
  obtain ⟨i, hi, rfl⟩ := List.mem_map.mp hb
  simp [Nat.ne_of_lt (List.mem_range.mp hi)]

/-- Every drive emitted while holding one beat presents `valid` high and the
beat's unchanged signal values. -/
theorem driveBeat_stable (sig : DrivenBeat) (l : Bool) :
    ∀ readys : List Bool, ∀ drv ∈ (driveBeat sig l readys).1,
      drv = ⟨true, sig.data, sig.err, l⟩ := by
  intro readys
  induction readys with
  | nil => intro drv h; cases h
  | cons r rs ih =>
    intro drv h
    by_cases hr : r = true
    · simp [driveBeat, hr] at h
      simp [h]
    · simp only [Bool.not_eq_true] at hr
      simp only [driveBeat, hr, Bool.false_eq_true, if_false] at h
      rcases List.mem_cons.mp h with h | h
      · exact h
      · exact ih drv h

/-- The hold loop ends exactly at the first cycle whose `ready` sample is
high: the beat occupies `i + 1` sampled cycles when `i` is the index of the
first high sample, and the remaining samples are those after it. -/
theorem driveBeat_accepts (sig : DrivenBeat) (l : Bool) :
    ∀ (readys : List Bool) (i : Nat), readys.get? i = some true →
      (∀ j, j < i → readys.get? j = some false) →
      (driveBeat sig l readys).1.length = i + 1 ∧
        (driveBeat sig l readys).2 = readys.drop (i + 1) := by
  intro readys
  induction readys with
  | nil => intro i hi _; cases hi
  | cons r rs ih =>
    intro i hi hbefore
    cases i with
    | zero =>
      have hr : r = true := by simpa using hi
      simp [driveBeat, hr]
    | succ i' =>
      have hr : r = false := by
        have := hbefore 0 (Nat.succ_pos i')
        simpa using this
      have hi' : rs.get? i' = some true := by simpa using hi
      have hbefore' : ∀ j, j < i' → rs.get? j = some false := by
        intro j hj
        have := hbefore (j + 1) (Nat.succ_lt_succ hj)
        simpa using this
      obtain ⟨h1, h2⟩ := ih i' hi' hbefore'
      constructor
      · simp only [driveBeat, hr, Bool.false_eq_true, if_false, List.length_cons]
        omega
      · simpa [driveBeat, hr] using h2

/-- When `handshake` returns at index `k`, both `valid` and `ready` were
sampled high at `k`. -/
theorem handshakeIdx_spec :
    ∀ (vs rs : List Bool) (k : Nat), handshakeIdx vs rs = some k →
      vs.get? k = some true ∧ rs.get? k = some true := by
  intro vs
  induction vs with
  | nil => intro rs k h; cases h
  | cons v vs ih =>
    intro rs k h
    cases rs with
    | nil => cases h
    | cons r rs =>
      cases hvr : (v && r) with
      | true =>
        obtain ⟨hv, hr⟩ := Bool.and_eq_true_iff.mp hvr
        simp only [handshakeIdx, hvr, if_true, Option.some.injEq] at h
        subst h
        simp [hv, hr]
      | false =>
        cases hm : handshakeIdx vs rs with
        | none =>
          simp only [handshakeIdx, hvr, Bool.false_eq_true, if_false, hm,
            Option.map_none'] at h
          exact Option.noConfusion h
        | some k' =>
          simp only [handshakeIdx, hvr, Bool.false_eq_true, if_false, hm,
            Option.map_some', Option.some.injEq] at h
          obtain ⟨h1, h2⟩ := ih rs k' hm
          subst h
          simp only [List.get?_cons_succ]
          exact ⟨h1, h2⟩

/- ------------------------------------------------------------------ -/
/- Claim theorems                                                     -/
/- ------------------------------------------------------------------ -/

/-- C1: for the capacity-sized packet `[0..53]` the harness runs exactly the
specified choreography: lower `done`; receive beats 0..50 (51 beats); observe
`replayable` and pulse `replay`; receive beats 0..51 (52 beats); wait 3 idle
cycles and then assert that `replayable` still holds (the harness's check
that `replayable` stayed true across the wait) and pulse `replay` a second
time; raise `done`; receive the full 54-beat sequence exactly once more with
`last` true only on beat 53. -/
theorem capacity_packet_choreography :
    recv (List.range 54) =
      Action.setDone false :: c1seg1 ++
      [Action.checkReplayable, Action.pulseReplay] ++ c1seg2 ++
      [Action.waitCycles 3, Action.checkReplayable, Action.pulseReplay,
        Action.setDone true] ++ c1segFull := by
  set_option maxRecDepth 10000 in decide

/-- C2 counterexample: in the 384-element-packet run (`list(range(128, 512))`)
the harness never performs the 3-idle-cycle wait: `recv` waits only when
`len(packet) <= BUF_SIZE` (line 90), and `384 > 54`. -/
theorem large_packet_has_no_wait :
    Action.waitCycles 3 ∉ recv (List.range' 128 384) := by
  set_option maxRecDepth 100000 in decide

/-- C2 (amended): for the 384-element packet with `C = 54` the harness runs
the same replay choreography bounded to `min(384, 54) = 54` beats — 51 beats
before the first replay and 52 before the second — but without the
3-idle-cycle wait, which the harness performs only for packets of length at
most `BUF_SIZE`. -/
theorem large_packet_choreography :
    recv (List.range' 128 384) =
      Action.setDone false :: c2seg1 ++
      [Action.checkReplayable, Action.pulseReplay] ++ c2seg2 ++
      [Action.checkReplayable, Action.pulseReplay, Action.setDone true] ++
      c2segFull := by
  set_option maxRecDepth 100000 in decide

/-- C3: every `replay` pulse the harness issues across the whole test (all
three packets) is immediately preceded by the harness asserting
`replayable`; the harness never drives `replay` without having just observed
`replayable` high. -/
theorem replay_only_when_replayable : replayGuarded recvAll = true := by
  set_option maxRecDepth 100000 in decide

/-- C4: for every position `i` below the requested length, `recv_len` checks
that the beat consumed at egress position `i` carries data `packet[i]` and a
`last` flag that is true exactly when `i` is the packet's final index; the
`recvBeat` action embeds the two assertions of lines 72-73, whose failure
fails the test. -/
theorem recvLen_beat_checks (p : List Nat) (n i v : Nat)
    (hi : i < n) (hv : p.get? i = some v) :
    (recvLen p n).get? i =
      some (Action.recvBeat v (decide (i = p.length - 1))) := by
  unfold recvLen
  rw [List.get?_map, List.get?_enum, List.get?_take hi, hv]
  rfl

/-- C4 witness: position 1 of `recv_len 2` on packet `[10, 11, 12]` checks
beat `(11, last = false)`. -/
theorem recvLen_beat_checks_witness :
    (recvLen [10, 11, 12] 2).get? 1 = some (Action.recvBeat 11 false) :=
  recvLen_beat_checks [10, 11, 12] 2 1 11 (by decide) rfl

/-- C5: for every packet, after the harness raises `done` it performs one
final full pass `recv_len(len(packet))`, and the `(data, last)` pairs checked
by that pass are exactly the pairs accepted at ingress (the `lookahead`
sequence the sender drives): the whole packet in order, with `last` true only
on the final beat. -/
theorem final_pass_matches_ingress (p : List Nat) :
    (∃ front, recv p = front ++ Action.setDone true :: recvLen p p.length) ∧
    beatPairs (recvLen p p.length) = lookahead p := by
  constructor
  · refine ⟨[Action.setDone false] ++ recvLen p (min p.length BUF_SIZE - 3) ++
      restart ++ recvLen p (min p.length BUF_SIZE - 2) ++
      (if p.length ≤ BUF_SIZE then [Action.waitCycles 3] else []) ++
      restart, ?_⟩
    simp [recv, List.append_assoc]
  · unfold recvLen lookahead
    rw [List.take_length, beatPairs_map]

/-- C7: for every packet, `recv` lowers `done` first, raises it exactly once,
does so after every `replay` pulse of that packet (all pulses live in the
middle section), and never touches `done` again for the remainder of the
packet's reception (the final full pass contains neither `setDone` nor
`pulseReplay`); `done` is lowered again only by the `recv` of the next
packet, whose first action is `setDone false`. -/
theorem done_protocol (p : List Nat) :
    ∃ mid, recv p =
        Action.setDone false :: mid ++ Action.setDone true :: recvLen p p.length ∧
      Action.setDone true ∉ mid ∧
      Action.setDone false ∉ mid ∧
      Action.setDone true ∉ recvLen p p.length ∧
      Action.setDone false ∉ recvLen p p.length ∧
      Action.pulseReplay ∉ recvLen p p.length := by
  refine ⟨recvLen p (min p.length BUF_SIZE - 3) ++ restart ++
    recvLen p (min p.length BUF_SIZE - 2) ++
    (if p.length ≤ BUF_SIZE then [Action.waitCycles 3] else []) ++ restart,
    ?_, ?_, ?_, ?_, ?_, ?_⟩
  · simp [recv, List.append_assoc]
  · intro h
    by_cases hp : p.length ≤ BUF_SIZE <;>
      simp [hp, restart, List.mem_append, setDone_not_mem_recvLen] at h
  · intro h
    by_cases hp : p.length ≤ BUF_SIZE <;>
      simp [hp, restart, List.mem_append, setDone_not_mem_recvLen] at h
  · exact setDone_not_mem_recvLen true p p.length
  · exact setDone_not_mem_recvLen false p p.length
  · exact pulseReplay_not_mem_recvLen p p.length

/-- C6: the harness obeys the valid/ready handshake on both sides.  Sender
side (`send_packet`): while holding a beat, every sampled cycle presents
`valid` high with the beat's data/err/last values unchanged; the hold ends at
exactly the first cycle whose `ready` sample is high (index `i`), so the beat
occupies `i + 1` sampled cycles and is transferred exactly once, on the one
cycle where `valid` and `ready` coincide, after which `valid` is deasserted
and the next element follows on the remaining cycles.  Receiver side
(`handshake`): a beat is counted as consumed only at a cycle where both
`m_axis_valid` and `m_axis_ready` are sampled high. -/
theorem handshake_protocol (sig : DrivenBeat) (l : Bool) (readys : List Bool)
    (i : Nat) (hi : readys.get? i = some true)
    (hbefore : ∀ j ∈ List.range i, readys.get? j = some false)
    (vs rs : List Bool) (k : Nat) (hk : handshakeIdx vs rs = some k) :
    (∀ drv ∈ (driveBeat sig l readys).1, drv = ⟨true, sig.data, sig.err, l⟩) ∧
    (driveBeat sig l readys).1.length = i + 1 ∧
    (driveBeat sig l readys).2 = readys.drop (i + 1) ∧
    vs.get? k = some true ∧ rs.get? k = some true := by
  obtain ⟨h1, h2⟩ := driveBeat_accepts sig l readys i hi
    (fun j hj => hbefore j (List.mem_range.mpr hj))
  obtain ⟨h3, h4⟩ := handshakeIdx_spec vs rs k hk
  exact ⟨driveBeat_stable sig l readys, h1, h2, h3, h4⟩

/-- C6 witness: with `ready` low then high, the beat is held for exactly two
sampled cycles; the receiver consumption index points at a cycle with both
`valid` and `ready` high. -/
theorem handshake_protocol_witness :
    (driveBeat ⟨some 7, none⟩ true [false, true, false]).1.length = 2 ∧
    (driveBeat ⟨some 7, none⟩ true [false, true, false]).2 = [false] ∧
    [false, true].get? 1 = some true ∧ [true, true].get? 1 = some true := by
  have h := handshake_protocol ⟨some 7, none⟩ true [false, true, false] 1 rfl
    (by decide) [false, true] [true, true] 1 rfl
  exact ⟨h.2.1, h.2.2.1, h.2.2.2.1, h.2.2.2.2⟩

/-- C8: for every non-empty packet, the `(val, last)` pairs that
`send_packet` iterates over carry the packet's elements in order, and the
driven `last` flags are false on every element except the final one, which
alone carries `last = true`. -/
theorem send_last_flags (p : List Nat) (h : p ≠ []) :
    (lookahead p).map Prod.fst = p ∧
    (lookahead p).map Prod.snd =
      List.replicate (p.length - 1) false ++ [true] := by
  constructor
  · have key : Prod.fst ∘
        (fun q : Nat × Nat => (q.2, decide (q.1 = p.length - 1))) =
        Prod.snd := rfl
    rw [lookahead, List.map_map, key, List.enum_map_snd]
  · obtain ⟨m, hm⟩ := Nat.exists_eq_succ_of_ne_zero
      (Nat.pos_iff_ne_zero.mp (List.length_pos.mpr h))
    have key : Prod.snd ∘
        (fun q : Nat × Nat => (q.2, decide (q.1 = p.length - 1))) =
        (fun i => decide (i = p.length - 1)) ∘ Prod.fst := rfl
    rw [lookahead, List.map_map, key, ← List.map_map, List.enum_map_fst, hm]
    simp only [Nat.succ_sub_one]
    rw [List.range_succ, List.map_append, range_map_ne m]
    simp

/-- C8 witness: the packet `[5, 6, 7]` is driven in order with `last` flags
`[false, false, true]`. -/
theorem send_last_flags_witness :
    (lookahead [5, 6, 7]).map Prod.fst = [5, 6, 7] ∧
    (lookahead [5, 6, 7]).map Prod.snd = [false, false, true] := by
  have h := send_last_flags [5, 6, 7] (by decide)
  exact ⟨h.1, h.2⟩

/-- C9: with an `err` signal in the map, `send_packet` transmits a `None`
element as an error beat (`err = 1`, data replaced by 0) and any other
element `v` with `err = 0` and `data = v`; without an `err` signal the
element is driven onto `data` unconditionally. -/
theorem error_beat_encoding :
    (∀ v : Nat, driveBeatValues true (some v) = ⟨some v, some false⟩) ∧
    driveBeatValues true none = ⟨some 0, some true⟩ ∧
    ∀ val : Option Nat, driveBeatValues false val = ⟨val, none⟩ :=
  ⟨fun _ => rfl, rfl, fun _ => rfl⟩

end AxisReplayBuffer
